import Mathlib

/-!
Verification of the RSR backup/restore engine (`src/app/main.py`).

The engine consists of `BackupWorker._do_backup` (file enumeration over
`os.walk` with the `EXCLUDED_DIRS` pruning, streaming `tar.gz` creation with
per-file skip-on-error, cadenced progress emission, cooperative cancellation)
and `RestoreWorker._do_restore` (destination creation via
`ensure_dir`/`os.makedirs(exist_ok=True)`, member listing, per-member
extraction with skip-on-error, the same progress/cancellation protocol).

The shallow embedding below models:
  * the filesystem as a finite tree of directories and regular files, each
    carrying a readability flag (a non-readable directory makes
    `os.scandir` fail, which `os.walk` with `onerror=None` silently
    swallows; a non-readable file makes `tar.add` raise `PermissionError`,
    which the worker logs as a skip);
  * paths as the strings the Python code actually manipulates
    (`os.path.join`, `str.startswith`, `str.lstrip(os.sep)`);
  * the emitted Qt signals as pure data: the ordered list of emitted
    progress percentages, the list of skip-log entries, and the single
    terminal `finished(success, message)` result;
  * `int(idx * 100 / total)` as natural-number floor division (the Python
    expression divides floats; for the file counts involved the float
    quotient and the exact floor coincide, and the exact floor is the
    value the embedding uses);
  * the cancellation flag as the number `k` of items after whose
    processing the flag becomes visible: the checkpoint at the top of
    iteration `i` (with `i - 1` items processed) observes the flag iff
    `k ≤ i - 1`.  Cancellation during the enumeration phase is not
    exercised by the claims (they set the flag after `k > 0` archive items)
    and is not modelled.
-/

/-- Python `s.startswith(pre)` on the UTF-8 character sequences. -/
def startswith (s pre : String) : Bool := pre.data.isPrefixOf s.data

/-- Python `s.lstrip(os.sep)` with `os.sep = "/"`: drop every leading slash. -/
def lstripSep (s : String) : String := String.mk (s.data.dropWhile (fun c => c == '/'))

/-- The walk root used by `_do_backup` (`root = "/"`). -/
def rootPath : String := "/"

/-- Python `os.path.join(p, name)` for the shapes produced by `os.walk("/")`:
`p` is absolute without a trailing slash except for the root itself, and
`name` is a single entry name. -/
def pathJoin (p name : String) : String :=
  if p = rootPath then p ++ name else p ++ ("/") ++ name

mutual
/-- A filesystem node: a regular file (with a readability flag and byte
content) or a directory (with a readability flag and an ordered entry list,
in the order `os.scandir` reports them). -/
inductive FSTree where
  | file (readable : Bool) (content : List Nat)
  | dir (readable : Bool) (entries : FSEntries)
deriving DecidableEq, Repr
/-- Ordered named entries of a directory. -/
inductive FSEntries where
  | nil
  | cons (name : String) (child : FSTree) (rest : FSEntries)
deriving DecidableEq, Repr
end

/-- Whether the node is a directory. -/
def FSTree.isDir : FSTree → Bool
  | .file _ _ => false
  | .dir _ _ => true

/-- One enumerated file: its absolute path, its readability, its content.
The Python code stores only the path in `all_files`; readability and content
are the attributes of the file the later `tar.add` call sees. -/
structure FileRec where
  path : String
  readable : Bool
  content : List Nat
deriving DecidableEq, Repr

/-- The `EXCLUDED_DIRS` tuple of `main.py`. -/
def EXCLUDED_DIRS : List String :=
  [("/proc"), ("/sys"), ("/dev"), ("/run"), ("/tmp"),
   ("/mnt"), ("/media"), ("/lost+found"), ("/var/tmp"), ("/var/run")]

/-- The exclusion test of `_do_backup` lines 119-120: a visited directory
path is excluded iff it equals an excluded root or starts with that root
followed by `os.sep`. -/
def isExcludedDir (p : String) : Bool :=
  EXCLUDED_DIRS.any (fun ex => p == ex || startswith p (ex ++ ("/")))

/-- The `FileRec`s contributed by the plain files directly inside a visited
directory `p` (the `for fname in filenames` loop), in entry order. -/
def walkFilesOf (p : String) : FSEntries → List FileRec
  | .nil => []
  | .cons n (.file rd c) rest => ⟨pathJoin p n, rd, c⟩ :: walkFilesOf p rest
  | .cons _ (.dir _ _) rest => walkFilesOf p rest

mutual
/-- The file-enumeration phase of `_do_backup` (lines 111-127): `os.walk`
with `topdown=True` and `onerror=None` over the node mounted at path `p`,
with the `EXCLUDED_DIRS` pruning.  A non-directory root yields nothing
(`scandir` raises `NotADirectoryError`, swallowed); an unreadable directory
yields nothing and is not descended into (`scandir` raises
`PermissionError`, swallowed); an excluded directory has `dirnames` and
`filenames` cleared, so it contributes no files and no descent.  Otherwise
the directory contributes its plain files first, then the walks of its
subdirectories in entry order. -/
def walkTree (p : String) : FSTree → List FileRec
  | .file _ _ => []
  | .dir rd entries =>
    if rd && !isExcludedDir p then
      walkFilesOf p entries ++ walkSub p entries
    else []
/-- Walks of the subdirectories of a visited directory `p`, in entry order. -/
def walkSub (p : String) : FSEntries → List FileRec
  | .nil => []
  | .cons n child rest =>
    (match child with
     | .dir _ _ => walkTree (pathJoin p n) child
     | .file _ _ => []) ++ walkSub p rest
end

mutual
/-- Number of regular files anywhere in the tree (a bare file node counts 1). -/
def countFiles : FSTree → Nat
  | .file _ _ => 1
  | .dir _ entries => countFilesE entries
/-- Number of regular files in an entry list. -/
def countFilesE : FSEntries → Nat
  | .nil => 0
  | .cons _ child rest => countFiles child + countFilesE rest
end

mutual
/-- Every directory of the tree mounted at `p` is readable and not excluded
(so `os.walk` visits all of it). -/
def dirsOk (p : String) : FSTree → Bool
  | .file _ _ => true
  | .dir rd entries => rd && !isExcludedDir p && dirsOkE p entries
/-- Directory condition over an entry list of a directory at `p`. -/
def dirsOkE (p : String) : FSEntries → Bool
  | .nil => true
  | .cons n child rest => dirsOk (pathJoin p n) child && dirsOkE p rest
end

mutual
/-- Every regular file of the tree is readable. -/
def filesReadable : FSTree → Bool
  | .file rd _ => rd
  | .dir _ entries => filesReadableE entries
/-- File-readability condition over an entry list. -/
def filesReadableE : FSEntries → Bool
  | .nil => true
  | .cons _ child rest => filesReadable child && filesReadableE rest
end

mutual
/-- Every entry name in the tree is slash-free (the invariant real directory
entries satisfy: a name returned by `scandir` never contains `os.sep`). -/
def validNames : FSTree → Bool
  | .file _ _ => true
  | .dir _ entries => validNamesE entries
/-- Name condition over an entry list. -/
def validNamesE : FSEntries → Bool
  | .nil => true
  | .cons n child rest => !n.data.contains '/' && validNames child && validNamesE rest
end

mutual
/-- The full pre-order file listing of the tree mounted at `p`, with no
readability or exclusion pruning: what `os.walk` produces when every
directory is readable and unexcluded. -/
def allRecords (p : String) : FSTree → List FileRec
  | .file _ _ => []
  | .dir _ entries => walkFilesOf p entries ++ allRecordsE p entries
/-- Full listing over an entry list. -/
def allRecordsE (p : String) : FSEntries → List FileRec
  | .nil => []
  | .cons n child rest =>
    (match child with
     | .dir _ _ => allRecords (pathJoin p n) child
     | .file _ _ => []) ++ allRecordsE p rest
end

/-- One archive member: its name inside the tar and its content. -/
structure Member where
  name : String
  content : List Nat
deriving DecidableEq, Repr

/-- The payload of the single terminal `finished(success, message)` signal. -/
structure JobResult where
  success : Bool
  message : String
deriving DecidableEq, Repr

/-- Message of `finished` when enumeration found nothing (line 131). -/
def msgNoFiles : String := "Не найдено файлов для бэкапа."

/-- Message of `finished` on backup cancellation (lines 114 and 143). -/
def msgBackupCancelled : String := "Бэкап отменён"

/-- Message of `finished` on successful backup (line 175). -/
def msgBackupDone (destFile : String) : String :=
  "Полный бэкап создан:\n" ++ destFile

/-- Message of `finished` on restore cancellation (line 222). -/
def msgRestoreCancelled : String := "Восстановление отменено"

/-- Message of `finished` when the archive lists zero members (line 217). -/
def msgEmptyArchive : String := "Архив пустой."

/-- Message of `finished` on successful restore (lines 244-247). -/
def msgRestoreDone (dest : String) : String :=
  "Тестовое восстановление завершено.\nКаталог: " ++ dest

/-- Message class of `finished` when `RestoreWorker.run` catches the
exception raised by `tarfile.open` on an unopenable or invalid archive
(line 204, `f-string` with the exception text; the embedding fixes one
representative text since the theorems only inspect `success`). -/
def msgRestoreOpenError : String :=
  "Ошибка при восстановлении: не удалось открыть архив"

/-- Observable outcome of one `BackupWorker` job: the ordered emitted
progress percentages, the members of the archive file on disk (`none` when
no archive file was created at all), the skip-log paths in order, and the
terminal result. -/
structure BackupOutcome where
  progress : List Nat
  archive : Option (List Member)
  skipped : List String
  result : JobResult
deriving DecidableEq, Repr

/-- Whether the cancellation checkpoint observes the flag when `processed`
items have been handled, for a flag that becomes visible after `k` items. -/
def cancelObserved (cancelK : Option Nat) (processed : Nat) : Bool :=
  match cancelK with
  | none => false
  | some k => decide (k ≤ processed)

/-- The per-file archiving loop of `_do_backup` (lines 141-169), processing
the items from 1-based index `idx` on: checkpoint the cancellation flag,
compute `arcname = full_path.lstrip(os.sep)`, attempt `tar.add` (a readable
file becomes a member, an unreadable one a skip-log entry), then emit
`int(idx * 100 / total)` when `idx % 50 == 0 or idx == total`.  Returns the
members added, the skip log, the emitted percentages, and whether the loop
stopped at a cancellation checkpoint. -/
def backupLoop (cancelK : Option Nat) (total : Nat) :
    List FileRec → Nat → List Member × List String × List Nat × Bool
  | [], _ => ([], [], [], false)
  | r :: rest, idx =>
    if cancelObserved cancelK (idx - 1) then ([], [], [], true)
    else
      let arcname := lstripSep r.path
      let out := backupLoop cancelK total rest (idx + 1)
      let ms := if r.readable then ⟨arcname, r.content⟩ :: out.1 else out.1
      let sk := if r.readable then out.2.1 else r.path :: out.2.1
      let pr := if idx % 50 == 0 || idx == total then
          (idx * 100 / total) :: out.2.2.1 else out.2.2.1
      (ms, sk, pr, out.2.2.2)

/-- The whole of `_do_backup` (lines 94-175) on the tree mounted at `/`,
with destination file name `destFile`: emit progress 0, enumerate, fail
without creating the archive when nothing was found, otherwise open the
archive and run the per-file loop, and on normal loop exit emit the final
unconditional 100 and report success. -/
def doBackup (destFile : String) (t : FSTree) (cancelK : Option Nat) : BackupOutcome :=
  let files := walkTree rootPath t
  let total := files.length
  if total = 0 then
    { progress := [0], archive := none, skipped := [],
      result := ⟨false, msgNoFiles⟩ }
  else
    let out := backupLoop cancelK total files 1
    if out.2.2.2 then
      { progress := 0 :: out.2.2.1, archive := some out.1, skipped := out.2.1,
        result := ⟨false, msgBackupCancelled⟩ }
    else
      { progress := 0 :: out.2.2.1 ++ [100], archive := some out.1, skipped := out.2.1,
        result := ⟨true, msgBackupDone destFile⟩ }

/-- Filesystem-level events of a restore, recorded in order: the
`ensure_dir(self.extract_dir)` call (line 211) and the
`tarfile.open(self.archive_path)` attempt (line 213). -/
inductive REvent where
  | ensureDir
  | openArchive (ok : Bool)
deriving DecidableEq, Repr

/-- Observable outcome of one `RestoreWorker` job: the ordered
filesystem-level events, the emitted progress percentages, the extraction
targets written (the path `tarfile` builds as `os.path.join(extract_dir,
member.name)`, with the member content), the skip-log member names, and the
terminal result. -/
structure RestoreOutcome where
  trace : List REvent
  progress : List Nat
  extracted : List (String × List Nat)
  skipped : List String
  result : JobResult
deriving DecidableEq, Repr

/-- The per-member extraction loop of `_do_restore` (lines 220-238):
checkpoint the cancellation flag, attempt `tar.extract(member,
path=extract_dir)` (writing to `os.path.join(extract_dir, member.name)`
when it succeeds, logging a skip when it raises), then emit
`int(idx * 100 / total)` when `idx % 50 == 0 or idx == total`. -/
def restoreLoop (dest : String) (extractOk : String → Bool) (cancelK : Option Nat)
    (total : Nat) :
    List Member → Nat → List (String × List Nat) × List String × List Nat × Bool
  | [], _ => ([], [], [], false)
  | m :: rest, idx =>
    if cancelObserved cancelK (idx - 1) then ([], [], [], true)
    else
      let out := restoreLoop dest extractOk cancelK total rest (idx + 1)
      let ex := if extractOk m.name then (pathJoin dest m.name, m.content) :: out.1 else out.1
      let sk := if extractOk m.name then out.2.1 else m.name :: out.2.1
      let pr := if idx % 50 == 0 || idx == total then
          (idx * 100 / total) :: out.2.2.1 else out.2.2.1
      (ex, sk, pr, out.2.2.2)

/-- The whole of `_do_restore` (lines 206-247) extracting into `dest`:
`ensure_dir(dest)` runs first and succeeds whether or not `dest` already
exists (`os.makedirs(..., exist_ok=True)`; the `destExists` argument
records the pre-state and is never consulted by the code), then the archive
is opened (`archive = none` models an unopenable or invalid-gzip archive,
whose exception `run` turns into a failure result), its members are listed,
an empty listing fails, otherwise the per-member loop runs and on normal
exit the final unconditional 100 is emitted and success reported. -/
def doRestore (dest : String) (destExists : Bool) (archive : Option (List Member))
    (extractOk : String → Bool) (cancelK : Option Nat) : RestoreOutcome :=
  match archive with
  | none =>
    { trace := [.ensureDir, .openArchive false], progress := [], extracted := [],
      skipped := [], result := ⟨false, msgRestoreOpenError⟩ }
  | some members =>
    let total := members.length
    if total = 0 then
      { trace := [.ensureDir, .openArchive true], progress := [], extracted := [],
        skipped := [], result := ⟨false, msgEmptyArchive⟩ }
    else
      let out := restoreLoop dest extractOk cancelK total members 1
      if out.2.2.2 then
        { trace := [.ensureDir, .openArchive true], progress := out.2.2.1,
          extracted := out.1, skipped := out.2.1,
          result := ⟨false, msgRestoreCancelled⟩ }
      else
        { trace := [.ensureDir, .openArchive true], progress := out.2.2.1 ++ [100],
          extracted := out.1, skipped := out.2.1,
          result := ⟨true, msgRestoreDone dest⟩ }

/-- Members of the archive produced by a backup of the enumerated `files`:
the readable ones, named by their path with leading slashes stripped. -/
def membersOf : List FileRec → List Member
  | [] => []
  | r :: rest =>
    if r.readable then ⟨lstripSep r.path, r.content⟩ :: membersOf rest else membersOf rest

/-- Skip-log paths of a backup of the enumerated `files`: the unreadable ones. -/
def skipPathsOf : List FileRec → List String
  | [] => []
  | r :: rest => if r.readable then skipPathsOf rest else r.path :: skipPathsOf rest

/-- Extraction targets of a restore of `members` into `dest`: the members
whose extraction succeeds, written at `os.path.join(dest, name)`. -/
def extractedOf (dest : String) (extractOk : String → Bool) : List Member → List (String × List Nat)
  | [] => []
  | m :: rest =>
    if extractOk m.name then (pathJoin dest m.name, m.content) :: extractedOf dest extractOk rest
    else extractedOf dest extractOk rest

/-- Skip-log member names of a restore of `members`: those whose extraction
raises. -/
def skipNamesOf (extractOk : String → Bool) : List Member → List String
  | [] => []
  | m :: rest =>
    if extractOk m.name then skipNamesOf extractOk rest else m.name :: skipNamesOf extractOk rest

/-- The cadence emissions for indices `lo, lo+1, …, lo+cnt-1` out of
`total` items: those indices divisible by 50 or equal to `total`, mapped
through `int(idx * 100 / total)`. -/
def progressEmits (total lo cnt : Nat) : List Nat :=
  ((List.range' lo cnt).filter (fun i => i % 50 == 0 || i == total)).map
    (fun i => i * 100 / total)

/-- Split a character sequence on `/`, dropping empty components. -/
def splitSlashGo (cur : List Char) : List Char → List String
  | [] => if cur = [] then [] else [String.mk cur.reverse]
  | c :: rest =>
    if c = '/' then
      if cur = [] then splitSlashGo [] rest
      else String.mk cur.reverse :: splitSlashGo [] rest
    else splitSlashGo (c :: cur) rest

/-- Path components of an absolute path string. -/
def splitPath (s : String) : List String := splitSlashGo [] s.data

/-- Resolve `..` and `.` components the way the filesystem resolves the
target path handed to `open` during extraction (a `..` pops the previous
component). -/
def resolveComps (cs : List String) : List String :=
  cs.foldl (fun acc c =>
    if c = (".." : String) then acc.dropLast
    else if c = ("." : String) then acc
    else acc ++ [c]) []

/-- The filesystem location a path string finally denotes. -/
def resolvePath (s : String) : String :=
  rootPath ++ String.intercalate ("/") (resolveComps (splitPath s))

/-- Whether the location `target` finally denotes lies outside the
directory `dest`: it is neither `dest` itself nor below it. -/
def escapesOutside (dest target : String) : Bool :=
  !(resolvePath target == resolvePath dest) &&
    !(startswith (resolvePath target) (resolvePath dest ++ ("/")))

/-- The concrete scenario of spec section 8: a root with `a.txt`
(content "hi") and `sub/b.txt` (content "bye"), all readable. -/
def sampleTree : FSTree :=
  .dir true (.cons ("a.txt") (.file true [104, 105])
    (.cons ("sub") (.dir true (.cons ("b.txt") (.file true [98, 121, 101]) .nil)) .nil))

/-- A root holding a single unreadable regular file. -/
def unreadableFilesTree : FSTree :=
  .dir true (.cons ("secret") (.file false [9]) .nil)

/-- A root whose entry `tmp` is a regular file, so its absolute path is
exactly the excluded root `/tmp`. -/
def fileAtTmpTree : FSTree :=
  .dir true (.cons ("tmp") (.file true [5]) .nil)

/-- An unreadable root directory that does contain a readable file. -/
def unreadableRootTree : FSTree :=
  .dir false (.cons ("a") (.file true [1]) .nil)

/-- A root with two readable files, for cancellation scenarios. -/
def twoFilesTree : FSTree :=
  .dir true (.cons ("a") (.file true [1]) (.cons ("b") (.file true [2]) .nil))

/-- Unfolding lemma: the cadence emissions for one more item. -/
theorem progressEmits_succ (total lo cnt : Nat) :
    progressEmits total lo (cnt + 1) =
      (if lo % 50 == 0 || lo == total then [lo * 100 / total] else []) ++
        progressEmits total (lo + 1) cnt := by
  unfold progressEmits
  rw [List.range'_succ lo cnt 1, List.filter_cons]
  split <;> simp

/-- With no cancellation, the backup loop archives the readable items,
skips the unreadable ones, emits the cadence percentages, and exits
normally. -/
theorem backupLoop_none (total : Nat) :
    ∀ (files : List FileRec) (idx : Nat),
      backupLoop none total files idx =
        (membersOf files, skipPathsOf files, progressEmits total idx files.length, false) := by
  intro files
  induction files with
  | nil => intro idx; simp [backupLoop, membersOf, skipPathsOf, progressEmits]
  | cons r rest ih =>
    intro idx
    simp only [backupLoop, cancelObserved, ih (idx + 1)]
    simp only [List.length_cons, progressEmits_succ, membersOf, skipPathsOf]
    by_cases hr : r.readable <;>
      by_cases hc : (idx % 50 == 0 || idx == total) = true <;>
        simp [hr, hc]

/-- With the cancellation flag becoming visible after `k` items and more
than `k + 1 - idx` items remaining, the loop processes exactly the first
`k + 1 - idx` of them and stops cancelled. -/
theorem backupLoop_some_lt (total k : Nat) :
    ∀ (files : List FileRec) (idx : Nat), 1 ≤ idx → idx ≤ k + 1 →
      k + 1 - idx < files.length →
      backupLoop (some k) total files idx =
        (membersOf (files.take (k + 1 - idx)), skipPathsOf (files.take (k + 1 - idx)),
          progressEmits total idx (k + 1 - idx), true) := by
  intro files
  induction files with
  | nil => intro idx _ _ hlen; simp at hlen
  | cons r rest ih =>
    intro idx h1 h2 hlen
    rcases Nat.lt_or_ge idx (k + 1) with hlt | hge
    · have hobs : ¬ (k ≤ idx - 1) := by omega
      have hc1 : k + 1 - idx = (k + 1 - (idx + 1)) + 1 := by omega
      have ihr := ih (idx + 1) (by omega) (by omega) (by simp at hlen; omega)
      simp only [backupLoop, cancelObserved, decide_eq_true_eq, hobs, if_false, ihr]
      rw [hc1, List.take_succ_cons]
      simp only [progressEmits_succ, membersOf, skipPathsOf]
      by_cases hr : r.readable <;>
        by_cases hc : (idx % 50 == 0 || idx == total) = true <;>
          simp [hr, hc]
    · have heq : idx = k + 1 := by omega
      have hobs : k ≤ idx - 1 := by omega
      simp [backupLoop, cancelObserved, hobs, heq, membersOf, skipPathsOf, progressEmits]

/-- With the cancellation flag becoming visible only after all remaining
items, the loop behaves as if never cancelled. -/
theorem backupLoop_some_ge (total k : Nat) :
    ∀ (files : List FileRec) (idx : Nat), 1 ≤ idx →
      files.length ≤ k + 1 - idx →
      backupLoop (some k) total files idx =
        (membersOf files, skipPathsOf files, progressEmits total idx files.length, false) := by
  intro files
  induction files with
  | nil => intro idx _ _; simp [backupLoop, membersOf, skipPathsOf, progressEmits]
  | cons r rest ih =>
    intro idx h1 hlen
    have hobs : ¬ (k ≤ idx - 1) := by simp at hlen; omega
    have ihr := ih (idx + 1) (by omega) (by simp at hlen; omega)
    simp only [backupLoop, cancelObserved, decide_eq_true_eq, hobs, if_false, ihr]
    simp only [List.length_cons, progressEmits_succ, membersOf, skipPathsOf]
    by_cases hr : r.readable <;>
      by_cases hc : (idx % 50 == 0 || idx == total) = true <;>
        simp [hr, hc]

/-- With no cancellation, the restore loop extracts the extractable
members, skips the rest, emits the cadence percentages, and exits
normally. -/
theorem restoreLoop_none (dest : String) (extractOk : String → Bool) (total : Nat) :
    ∀ (members : List Member) (idx : Nat),
      restoreLoop dest extractOk none total members idx =
        (extractedOf dest extractOk members, skipNamesOf extractOk members,
          progressEmits total idx members.length, false) := by
  intro members
  induction members with
  | nil => intro idx; simp [restoreLoop, extractedOf, skipNamesOf, progressEmits]
  | cons m rest ih =>
    intro idx
    simp only [restoreLoop, cancelObserved, ih (idx + 1)]
    simp only [List.length_cons, progressEmits_succ, extractedOf, skipNamesOf]
    by_cases hm : extractOk m.name <;>
      by_cases hc : (idx % 50 == 0 || idx == total) = true <;>
        simp [hm, hc]

/-- Restore-loop analogue of `backupLoop_some_lt`. -/
theorem restoreLoop_some_lt (dest : String) (extractOk : String → Bool) (total k : Nat) :
    ∀ (members : List Member) (idx : Nat), 1 ≤ idx → idx ≤ k + 1 →
      k + 1 - idx < members.length →
      restoreLoop dest extractOk (some k) total members idx =
        (extractedOf dest extractOk (members.take (k + 1 - idx)),
          skipNamesOf extractOk (members.take (k + 1 - idx)),
          progressEmits total idx (k + 1 - idx), true) := by
  intro members
  induction members with
  | nil => intro idx _ _ hlen; simp at hlen
  | cons m rest ih =>
    intro idx h1 h2 hlen
    rcases Nat.lt_or_ge idx (k + 1) with hlt | hge
    · have hobs : ¬ (k ≤ idx - 1) := by omega
      have hc1 : k + 1 - idx = (k + 1 - (idx + 1)) + 1 := by omega
      have ihr := ih (idx + 1) (by omega) (by omega) (by simp at hlen; omega)
      simp only [restoreLoop, cancelObserved, decide_eq_true_eq, hobs, if_false, ihr]
      rw [hc1, List.take_succ_cons]
      simp only [progressEmits_succ, extractedOf, skipNamesOf]
      by_cases hm : extractOk m.name <;>
        by_cases hc : (idx % 50 == 0 || idx == total) = true <;>
          simp [hm, hc]
    · have heq : idx = k + 1 := by omega
      have hobs : k ≤ idx - 1 := by omega
      simp [restoreLoop, cancelObserved, hobs, heq, extractedOf, skipNamesOf, progressEmits]

/-- Restore-loop analogue of `backupLoop_some_ge`. -/
theorem restoreLoop_some_ge (dest : String) (extractOk : String → Bool) (total k : Nat) :
    ∀ (members : List Member) (idx : Nat), 1 ≤ idx →
      members.length ≤ k + 1 - idx →
      restoreLoop dest extractOk (some k) total members idx =
        (extractedOf dest extractOk members, skipNamesOf extractOk members,
          progressEmits total idx members.length, false) := by
  intro members
  induction members with
  | nil => intro idx _ _; simp [restoreLoop, extractedOf, skipNamesOf, progressEmits]
  | cons m rest ih =>
    intro idx h1 hlen
    have hobs : ¬ (k ≤ idx - 1) := by simp at hlen; omega
    have ihr := ih (idx + 1) (by omega) (by simp at hlen; omega)
    simp only [restoreLoop, cancelObserved, decide_eq_true_eq, hobs, if_false, ihr]
    simp only [List.length_cons, progressEmits_succ, extractedOf, skipNamesOf]
    by_cases hm : extractOk m.name <;>
      by_cases hc : (idx % 50 == 0 || idx == total) = true <;>
        simp [hm, hc]

/-- Every cadence emission whose index range stays strictly below `total`
is strictly below 100. -/
theorem progressEmits_mem_lt (total lo cnt : Nat) (h : lo + cnt ≤ total) :
    ∀ x ∈ progressEmits total lo cnt, x < 100 := by
  intro x hx
  unfold progressEmits at hx
  obtain ⟨i, hi, rfl⟩ := List.mem_map.mp hx
  have hmem := (List.mem_filter.mp hi).1
  have hrange := List.mem_range'_1.mp hmem
  have hit : i < total := by omega
  have htot : 0 < total := by omega
  rw [Nat.div_lt_iff_lt_mul htot]
  omega

/-- Every cadence emission is at most 100 when the index range stays at or
below `total`. -/
theorem progressEmits_mem_le (total lo cnt : Nat) (h : lo + cnt ≤ total + 1) :
    ∀ x ∈ progressEmits total lo cnt, x ≤ 100 := by
  intro x hx
  unfold progressEmits at hx
  obtain ⟨i, hi, rfl⟩ := List.mem_map.mp hx
  have hmem := (List.mem_filter.mp hi).1
  have hrange := List.mem_range'_1.mp hmem
  have hit : i ≤ total := by omega
  rcases Nat.eq_zero_or_pos total with h0 | htot
  · simp [h0]
  · calc i * 100 / total ≤ total * 100 / total :=
        Nat.div_le_div_right (Nat.mul_le_mul_right 100 hit)
      _ = 100 := Nat.mul_div_cancel_left 100 htot

/-- The cadence emissions are non-decreasing. -/
theorem progressEmits_sorted (total lo cnt : Nat) :
    (progressEmits total lo cnt).Pairwise (· ≤ ·) := by
  unfold progressEmits
  refine List.Pairwise.map _ ?_ (List.Pairwise.filter _ (List.pairwise_lt_range' lo cnt))
  intro a b hab
  exact Nat.div_le_div_right (Nat.mul_le_mul_right 100 (Nat.le_of_lt hab))

/-- Over a full run of `total ≥ 1` items, exactly one cadence emission
equals 100: the one at the final index. -/
theorem progressEmits_count_100 (total : Nat) (h : 1 ≤ total) :
    (progressEmits total 1 total).count 100 = 1 := by
  obtain ⟨m, rfl⟩ : ∃ m, total = m + 1 := ⟨total - 1, by omega⟩
  have hsplit : List.range' 1 (m + 1) = List.range' 1 m ++ [1 + m] := by
    rw [List.range'_concat]; simp
  unfold progressEmits
  rw [hsplit, List.filter_append, List.map_append, List.count_append]
  have hlast : List.filter (fun i => i % 50 == 0 || i == m + 1) [1 + m] = [1 + m] := by
    simp [Nat.add_comm 1 m]
  rw [hlast]
  have hval : (1 + m) * 100 / (m + 1) = 100 := by
    rw [Nat.add_comm 1 m]
    exact Nat.mul_div_cancel_left 100 (by omega)
  have hleft :
      (List.count 100 ((List.filter (fun i => i % 50 == 0 || i == m + 1)
        (List.range' 1 m)).map (fun i => i * 100 / (m + 1)))) = 0 := by
    refine List.count_eq_zero.mpr ?_
    intro hmem
    have := progressEmits_mem_lt (m + 1) 1 m (by omega) 100 (by
      unfold progressEmits
      exact hmem)
    omega
  rw [hleft]
  simp [hval]

/-- A backup over a tree enumerating no files fails with the
"nothing to back up" message, creating no archive, for any cancellation
schedule. -/
theorem doBackup_no_files (destFile : String) (t : FSTree) (cancelK : Option Nat)
    (h : walkTree rootPath t = []) :
    doBackup destFile t cancelK =
      ⟨[0], none, [], ⟨false, msgNoFiles⟩⟩ := by
  unfold doBackup
  simp [h]

/-- A backup over a tree enumerating at least one file, never cancelled,
completes: it emits `0`, the cadence percentages, and a final `100`,
archives the readable files under their stripped names, skips the
unreadable ones, and reports success naming the archive. -/
theorem doBackup_complete (destFile : String) (t : FSTree)
    (h : walkTree rootPath t ≠ []) :
    doBackup destFile t none =
      ⟨0 :: (progressEmits (walkTree rootPath t).length 1 (walkTree rootPath t).length
          ++ [100]),
        some (membersOf (walkTree rootPath t)), skipPathsOf (walkTree rootPath t),
        ⟨true, msgBackupDone destFile⟩⟩ := by
  unfold doBackup
  have hlen : ¬ ((walkTree rootPath t).length = 0) := by
    simpa [List.length_eq_zero] using h
  simp only [hlen, if_false, backupLoop_none]
  simp

/-- A backup over `n` enumerated files whose cancellation flag becomes
visible after `k` items, `0 < k < n`, stops cancelled: it reports the
cancellation result and emits `0` plus only the cadence percentages of the
first `k` items. -/
theorem doBackup_cancelled (destFile : String) (t : FSTree) (k : Nat)
    (h2 : k < (walkTree rootPath t).length) :
    doBackup destFile t (some k) =
      ⟨0 :: progressEmits (walkTree rootPath t).length 1 k,
        some (membersOf ((walkTree rootPath t).take k)),
        skipPathsOf ((walkTree rootPath t).take k),
        ⟨false, msgBackupCancelled⟩⟩ := by
  unfold doBackup
  have hlen : ¬ ((walkTree rootPath t).length = 0) := by omega
  have hloop := backupLoop_some_lt (walkTree rootPath t).length k
    (walkTree rootPath t) 1 (by omega) (by omega) (by omega)
  simp only [hlen, if_false, hloop]
  simp

/-- A restore of an unopenable or invalid archive fails after having
created the destination directory. -/
theorem doRestore_open_fails (dest : String) (destExists : Bool)
    (extractOk : String → Bool) (cancelK : Option Nat) :
    doRestore dest destExists none extractOk cancelK =
      ⟨[.ensureDir, .openArchive false], [], [], [], ⟨false, msgRestoreOpenError⟩⟩ := rfl

/-- A restore of an archive listing zero members fails after having created
the destination directory. -/
theorem doRestore_empty (dest : String) (destExists : Bool)
    (extractOk : String → Bool) (cancelK : Option Nat) :
    doRestore dest destExists (some []) extractOk cancelK =
      ⟨[.ensureDir, .openArchive true], [], [], [], ⟨false, msgEmptyArchive⟩⟩ := rfl

/-- A restore of a nonempty archive, never cancelled, completes: it
extracts the extractable members at `os.path.join(dest, name)`, skips the
rest, emits the cadence percentages and a final `100`, and reports success
naming the destination — independently of whether the destination
pre-existed. -/
theorem doRestore_complete (dest : String) (destExists : Bool)
    (members : List Member) (extractOk : String → Bool) (h : members ≠ []) :
    doRestore dest destExists (some members) extractOk none =
      ⟨[.ensureDir, .openArchive true],
        progressEmits members.length 1 members.length ++ [100],
        extractedOf dest extractOk members, skipNamesOf extractOk members,
        ⟨true, msgRestoreDone dest⟩⟩ := by
  unfold doRestore
  have hlen : ¬ (members.length = 0) := by
    simpa [List.length_eq_zero] using h
  simp only [hlen, if_false, restoreLoop_none]
  simp

/-- A restore of `n` members whose cancellation flag becomes visible after
`k` items, `0 < k < n`, stops cancelled with only the first `k` items'
cadence percentages emitted. -/
theorem doRestore_cancelled (dest : String) (destExists : Bool)
    (members : List Member) (extractOk : String → Bool) (k : Nat)
    (h2 : k < members.length) :
    doRestore dest destExists (some members) extractOk (some k) =
      ⟨[.ensureDir, .openArchive true], progressEmits members.length 1 k,
        extractedOf dest extractOk (members.take k),
        skipNamesOf extractOk (members.take k),
        ⟨false, msgRestoreCancelled⟩⟩ := by
  unfold doRestore
  have hlen : ¬ (members.length = 0) := by omega
  have hloop := restoreLoop_some_lt dest extractOk members.length k
    members 1 (by omega) (by omega) (by omega)
  simp only [hlen, if_false, hloop]
  simp

/-- When every enumerated file is readable, all of them become members. -/
theorem membersOf_all_readable :
    ∀ (files : List FileRec), (∀ r ∈ files, r.readable = true) →
      membersOf files = files.map (fun r => ⟨lstripSep r.path, r.content⟩) := by
  intro files
  induction files with
  | nil => intro _; rfl
  | cons r rest ih =>
    intro h
    have hr : r.readable = true := h r (by simp)
    simp [membersOf, hr, ih (fun x hx => h x (by simp [hx]))]

/-- When every enumerated file is readable, the backup skip log is empty. -/
theorem skipPathsOf_all_readable :
    ∀ (files : List FileRec), (∀ r ∈ files, r.readable = true) →
      skipPathsOf files = [] := by
  intro files
  induction files with
  | nil => intro _; rfl
  | cons r rest ih =>
    intro h
    have hr : r.readable = true := h r (by simp)
    simp [skipPathsOf, hr, ih (fun x hx => h x (by simp [hx]))]

/-- When no enumerated file is readable, the archive receives no member. -/
theorem membersOf_none_readable :
    ∀ (files : List FileRec), (∀ r ∈ files, r.readable = false) →
      membersOf files = [] := by
  intro files
  induction files with
  | nil => intro _; rfl
  | cons r rest ih =>
    intro h
    have hr : r.readable = false := h r (by simp)
    simp [membersOf, hr, ih (fun x hx => h x (by simp [hx]))]

/-- When no enumerated file is readable, every one of them is skip-logged,
in order. -/
theorem skipPathsOf_none_readable :
    ∀ (files : List FileRec), (∀ r ∈ files, r.readable = false) →
      skipPathsOf files = files.map (fun r => r.path) := by
  intro files
  induction files with
  | nil => intro _; rfl
  | cons r rest ih =>
    intro h
    have hr : r.readable = false := h r (by simp)
    simp [skipPathsOf, hr, ih (fun x hx => h x (by simp [hx]))]

/-- When every member extracts successfully, all are written under `dest`. -/
theorem extractedOf_all (dest : String) :
    ∀ (members : List Member),
      extractedOf dest (fun _ => true) members =
        members.map (fun m => (pathJoin dest m.name, m.content)) := by
  intro members
  induction members with
  | nil => rfl
  | cons m rest ih => simp [extractedOf, ih]

/-- When every member extracts successfully, the restore skip log is empty. -/
theorem skipNamesOf_all :
    ∀ (members : List Member), skipNamesOf (fun _ => true) members = [] := by
  intro members
  induction members with
  | nil => rfl
  | cons m rest ih => simp [skipNamesOf, ih]

mutual
/-- When every directory is readable and unexcluded, the enumeration
visits the whole tree. -/
theorem walkTree_eq_allRecords :
    ∀ (p : String) (t : FSTree), dirsOk p t = true → walkTree p t = allRecords p t
  | _, .file _ _, _ => rfl
  | p, .dir rd es, h => by
    have h' := h
    simp only [dirsOk, Bool.and_eq_true, Bool.not_eq_true'] at h'
    obtain ⟨⟨h1, h2⟩, h3⟩ := h'
    simp only [walkTree, allRecords, h1, h2, Bool.not_false, Bool.and_self, if_true]
    rw [walkSub_eq_allRecordsE p es h3]
/-- Entry-list version of `walkTree_eq_allRecords`. -/
theorem walkSub_eq_allRecordsE :
    ∀ (p : String) (es : FSEntries), dirsOkE p es = true → walkSub p es = allRecordsE p es
  | _, .nil, _ => rfl
  | p, .cons n child rest, h => by
    have h' := h
    simp only [dirsOkE, Bool.and_eq_true] at h'
    obtain ⟨h1, h2⟩ := h'
    simp only [walkSub, allRecordsE]
    rw [walkSub_eq_allRecordsE p rest h2]
    cases child with
    | file rd c => rfl
    | dir rd es2 => rw [walkTree_eq_allRecords (pathJoin p n) (.dir rd es2) h1]
end

mutual
/-- The full listing of a directory tree has as many records as the tree
has regular files. -/
theorem allRecords_length :
    ∀ (p : String) (t : FSTree), t.isDir = true → (allRecords p t).length = countFiles t
  | p, .dir _ es, _ => by
    simp only [allRecords, countFiles, List.length_append]
    exact entriesRecords_length p es
/-- For an entry list, the direct files plus the subtree records count all
regular files. -/
theorem entriesRecords_length :
    ∀ (p : String) (es : FSEntries),
      (walkFilesOf p es).length + (allRecordsE p es).length = countFilesE es
  | _, .nil => rfl
  | p, .cons n (.file rd c) rest => by
    have ih := entriesRecords_length p rest
    simp only [walkFilesOf, allRecordsE, countFilesE, countFiles, List.length_cons,
      List.length_append, List.length_nil]
    omega
  | p, .cons n (.dir rd2 es2) rest => by
    have ih := entriesRecords_length p rest
    have ihd := allRecords_length (pathJoin p n) (.dir rd2 es2) rfl
    simp only [walkFilesOf, allRecordsE, countFilesE, List.length_append]
    omega
end

/-- Files enumerated directly inside a directory are readable when the
entry list's files all are. -/
theorem walkFilesOf_readable :
    ∀ (p : String) (es : FSEntries), filesReadableE es = true →
      ∀ r ∈ walkFilesOf p es, r.readable = true
  | _, .nil, _ => by simp [walkFilesOf]
  | p, .cons n (.file rd c) rest, h => by
    simp only [filesReadableE, filesReadable, Bool.and_eq_true] at h
    simp only [walkFilesOf, List.mem_cons]
    rintro r (rfl | hr)
    · exact h.1
    · exact walkFilesOf_readable p rest h.2 r hr
  | p, .cons n (.dir rd2 es2) rest, h => by
    simp only [filesReadableE, Bool.and_eq_true] at h
    simp only [walkFilesOf]
    exact walkFilesOf_readable p rest h.2

mutual
/-- When every file of the tree is readable, so is every enumerated record. -/
theorem walkTree_readable :
    ∀ (p : String) (t : FSTree), filesReadable t = true →
      ∀ r ∈ walkTree p t, r.readable = true
  | _, .file _ _, _ => by simp [walkTree]
  | p, .dir rd es, h => by
    have hE : filesReadableE es = true := by simpa [filesReadable] using h
    by_cases hc : (rd && !isExcludedDir p) = true
    · simp only [walkTree, hc, if_true]
      intro r hr
      rcases List.mem_append.mp hr with h1 | h2
      · exact walkFilesOf_readable p es hE r h1
      · exact walkSub_readable p es hE r h2
    · simp [walkTree, hc]
/-- Entry-list version of `walkTree_readable`. -/
theorem walkSub_readable :
    ∀ (p : String) (es : FSEntries), filesReadableE es = true →
      ∀ r ∈ walkSub p es, r.readable = true
  | _, .nil, _ => by simp [walkSub]
  | p, .cons n child rest, h => by
    simp only [filesReadableE, Bool.and_eq_true] at h
    simp only [walkSub]
    intro r hr
    rcases List.mem_append.mp hr with h1 | h2
    · cases child with
      | file rd c => simp at h1
      | dir rd es2 => exact walkTree_readable (pathJoin p n) (.dir rd es2) h.1 r h1
    · exact walkSub_readable p rest h.2 r h2
end

/-- Core list fact behind the exclusion property: appending `/name` (with a
slash-free `name`) to a path that neither equals an excluded root nor lies
below it cannot produce a path below that root. -/
theorem not_prefix_append_slash (q n ex : List Char) (hn : '/' ∉ n) (hq1 : q ≠ ex)
    (hq2 : ¬ (ex ++ ['/']) <+: q) : ¬ (ex ++ ['/']) <+: (q ++ '/' :: n) := by
  intro h
  have hrw : q ++ '/' :: n = (q ++ ['/']) ++ n := by simp
  rw [hrw] at h
  have hq : (q ++ ['/']) <+: ((q ++ ['/']) ++ n) := List.prefix_append _ _
  rcases List.prefix_or_prefix_of_prefix h hq with hc | hc
  · rcases Nat.lt_trichotomy ex.length q.length with hl | hl | hl
    · exact hq2 (List.prefix_of_prefix_length_le hc (List.prefix_append q ['/'])
        (by simp; omega))
    · apply hq1
      have heq := hc.eq_of_length (by simp [hl])
      exact (List.append_cancel_right heq).symm
    · have := hc.length_le
      simp at this
      omega
  · rcases Nat.lt_trichotomy q.length ex.length with hl | hl | hl
    · have hc' : (q ++ ['/']) <+: ex :=
        List.prefix_of_prefix_length_le hc (List.prefix_append ex ['/'])
          (by simp; omega)
      obtain ⟨rest, hrest⟩ := hc'
      have hex2 : ex ++ ['/'] = (q ++ ['/']) ++ (rest ++ ['/']) := by
        rw [← hrest]; simp
      rw [hex2] at h
      have h3 : (rest ++ ['/']) <+: n := (List.prefix_append_right_inj _).mp h
      exact hn (h3.subset (by simp))
    · exact hq1 (List.append_cancel_right (hc.eq_of_length (by simp [hl])))
    · have := hc.length_le
      simp at this
      omega

/-- An unexcluded path neither equals a given excluded root nor starts with
it followed by a slash. -/
theorem unexcluded_parts (p ex : String) (hex : ex ∈ EXCLUDED_DIRS)
    (hp : isExcludedDir p = false) :
    p ≠ ex ∧ ¬ ((ex.data ++ ['/']) <+: p.data) := by
  constructor
  · intro hpe
    have : isExcludedDir p = true := by
      unfold isExcludedDir
      exact List.any_eq_true.mpr ⟨ex, hex, by simp [hpe]⟩
    rw [hp] at this
    cases this
  · intro hpre
    have : isExcludedDir p = true := by
      unfold isExcludedDir
      have hsw : startswith p (ex ++ ("/")) = true := by
        unfold startswith
        rw [List.isPrefixOf_iff_prefix, String.data_append]
        exact hpre
      exact List.any_eq_true.mpr ⟨ex, hex, by simp [hsw]⟩
    rw [hp] at this
    cases this

/-- Joining a slash-free entry name onto an unexcluded visited directory
never lands below an excluded root. -/
theorem startswith_pathJoin_false (p n ex : String) (hex : ex ∈ EXCLUDED_DIRS)
    (hp : isExcludedDir p = false) (hn : n.data.contains '/' = false) :
    startswith (pathJoin p n) (ex ++ ("/")) = false := by
  have hparts := unexcluded_parts p ex hex hp
  have hnmem : '/' ∉ n.data := by
    intro hmem
    rw [List.contains_eq_any_beq] at hn
    have ht : n.data.any (fun x => '/' == x) = true :=
      List.any_eq_true.mpr ⟨'/', hmem, by simp⟩
    rw [hn] at ht
    cases ht
  rw [Bool.eq_false_iff]
  intro htrue
  unfold startswith at htrue
  rw [List.isPrefixOf_iff_prefix, String.data_append] at htrue
  by_cases hroot : p = rootPath
  · have hdata : (pathJoin p n).data = '/' :: n.data := by
      simp [pathJoin, hroot, rootPath]
    rw [hdata] at htrue
    have hexne : ex.data ≠ [] := by
      have hall : ∀ e ∈ EXCLUDED_DIRS, e.data ≠ [] := by decide
      exact hall ex hex
    exact not_prefix_append_slash [] n.data ex.data hnmem
      (fun hq => hexne hq.symm)
      (by rintro ⟨t, ht⟩; simp at ht)
      htrue
  · have hdata : (pathJoin p n).data = p.data ++ '/' :: n.data := by
      simp [pathJoin, hroot]
    rw [hdata] at htrue
    have hq1 : p.data ≠ ex.data := fun hd => hparts.1 (String.ext hd)
    exact not_prefix_append_slash p.data n.data ex.data hnmem hq1 hparts.2 htrue

/-- No file enumerated directly inside an unexcluded visited directory lies
below an excluded root. -/
theorem walkFilesOf_no_excluded :
    ∀ (p : String) (es : FSEntries) (ex : String), ex ∈ EXCLUDED_DIRS →
      isExcludedDir p = false → validNamesE es = true →
      ∀ r ∈ walkFilesOf p es, startswith r.path (ex ++ ("/")) = false
  | _, .nil, _, _, _, _ => by simp [walkFilesOf]
  | p, .cons n (.file rd c) rest, ex, hex, hp, hv => by
    simp only [validNamesE, Bool.and_eq_true, Bool.not_eq_true'] at hv
    simp only [walkFilesOf, List.mem_cons]
    rintro r (rfl | hr)
    · exact startswith_pathJoin_false p n ex hex hp hv.1.1
    · exact walkFilesOf_no_excluded p rest ex hex hp hv.2 r hr
  | p, .cons n (.dir rd2 es2) rest, ex, hex, hp, hv => by
    simp only [validNamesE, Bool.and_eq_true, Bool.not_eq_true'] at hv
    simp only [walkFilesOf]
    exact walkFilesOf_no_excluded p rest ex hex hp hv.2

mutual
/-- No enumerated record of a tree with slash-free entry names lies below
an excluded root (the exclusion pruning works for all nested paths). -/
theorem walkTree_no_excluded :
    ∀ (p : String) (t : FSTree) (ex : String), ex ∈ EXCLUDED_DIRS →
      validNames t = true →
      ∀ r ∈ walkTree p t, startswith r.path (ex ++ ("/")) = false
  | _, .file _ _, _, _, _ => by simp [walkTree]
  | p, .dir rd es, ex, hex, hv => by
    have hvE : validNamesE es = true := by simpa [validNames] using hv
    by_cases hc : (rd && !isExcludedDir p) = true
    · have hp : isExcludedDir p = false := by
        simp only [Bool.and_eq_true, Bool.not_eq_true'] at hc
        exact hc.2
      simp only [walkTree, hc, if_true]
      intro r hr
      rcases List.mem_append.mp hr with h1 | h2
      · exact walkFilesOf_no_excluded p es ex hex hp hvE r h1
      · exact walkSub_no_excluded p es ex hex hvE r h2
    · simp [walkTree, hc]
/-- Entry-list version of `walkTree_no_excluded`. -/
theorem walkSub_no_excluded :
    ∀ (p : String) (es : FSEntries) (ex : String), ex ∈ EXCLUDED_DIRS →
      validNamesE es = true →
      ∀ r ∈ walkSub p es, startswith r.path (ex ++ ("/")) = false
  | _, .nil, _, _, _ => by simp [walkSub]
  | p, .cons n child rest, ex, hex, hv => by
    simp only [validNamesE, Bool.and_eq_true, Bool.not_eq_true'] at hv
    simp only [walkSub]
    intro r hr
    rcases List.mem_append.mp hr with h1 | h2
    · cases child with
      | file rd c => simp at h1
      | dir rd es2 =>
        exact walkTree_no_excluded (pathJoin p n) (.dir rd es2) ex hex
          (by simpa [validNames] using hv.1.2) r h1
    · exact walkSub_no_excluded p rest ex hex hv.2 r h2
end

/-- A cancellation flag that becomes visible only at or after the final
item leaves the backup to complete normally. -/
theorem doBackup_some_complete (destFile : String) (t : FSTree) (k : Nat)
    (hne : walkTree rootPath t ≠ []) (hk : (walkTree rootPath t).length ≤ k) :
    doBackup destFile t (some k) =
      ⟨0 :: (progressEmits (walkTree rootPath t).length 1 (walkTree rootPath t).length
          ++ [100]),
        some (membersOf (walkTree rootPath t)), skipPathsOf (walkTree rootPath t),
        ⟨true, msgBackupDone destFile⟩⟩ := by
  unfold doBackup
  have hlen : ¬ ((walkTree rootPath t).length = 0) := by
    simpa [List.length_eq_zero] using hne
  have hloop := backupLoop_some_ge (walkTree rootPath t).length k
    (walkTree rootPath t) 1 (by omega) (by omega)
  simp only [hlen, if_false, hloop]
  simp

/-- Restore analogue of `doBackup_some_complete`. -/
theorem doRestore_some_complete (dest : String) (destExists : Bool)
    (members : List Member) (extractOk : String → Bool) (k : Nat)
    (hne : members ≠ []) (hk : members.length ≤ k) :
    doRestore dest destExists (some members) extractOk (some k) =
      ⟨[.ensureDir, .openArchive true],
        progressEmits members.length 1 members.length ++ [100],
        extractedOf dest extractOk members, skipNamesOf extractOk members,
        ⟨true, msgRestoreDone dest⟩⟩ := by
  unfold doRestore
  have hlen : ¬ (members.length = 0) := by
    simpa [List.length_eq_zero] using hne
  have hloop := restoreLoop_some_ge dest extractOk members.length k
    members 1 (by omega) (by omega)
  simp only [hlen, if_false, hloop]
  simp

/-- Cadence emissions followed by the final 100 are non-decreasing. -/
theorem sorted_emits_append_100 (total cnt : Nat) (h : cnt ≤ total) :
    (progressEmits total 1 cnt ++ [100]).Pairwise (· ≤ ·) := by
  rw [List.pairwise_append]
  refine ⟨progressEmits_sorted _ _ _, by simp, ?_⟩
  intro x hx y hy
  simp only [List.mem_singleton] at hy
  subst hy
  exact progressEmits_mem_le total 1 cnt (by omega) x hx

/-- Prepending the initial 0 keeps a non-decreasing list non-decreasing. -/
theorem sorted_zero_cons (l : List Nat) (h : l.Pairwise (· ≤ ·)) :
    (0 :: l).Pairwise (· ≤ ·) := by
  rw [List.pairwise_cons]
  exact ⟨fun y _ => Nat.zero_le y, h⟩

/-- The completed-backup progress stream ends in 100. -/
theorem getLast_zero_cons_append_100 (l : List Nat) :
    (0 :: (l ++ [100])).getLast? = some 100 := by
  rw [← List.cons_append]
  exact List.getLast?_concat _

/-- The completed-backup progress stream holds the value 100 exactly
twice. -/
theorem count_100_backup_complete (total : Nat) (h : 1 ≤ total) :
    (0 :: (progressEmits total 1 total ++ [100])).count 100 = 2 := by
  simp [List.count_cons, List.count_append, progressEmits_count_100 total h]

/-- The completed-restore progress stream holds the value 100 exactly
twice. -/
theorem count_100_restore_complete (total : Nat) (h : 1 ≤ total) :
    ((progressEmits total 1 total ++ [100]).count 100) = 2 := by
  simp [List.count_append, progressEmits_count_100 total h]

/-- C1: over a directory tree whose directories are all readable and
unexcluded and whose `N` regular files are all readable, running the backup
and then restoring the produced archive into an empty destination extracts
exactly one file per enumerated original, at
`os.path.join(dest, original path relative to the root)` — so the paths
relative to the destination equal the originals' paths relative to `/` —
with identical content; both phases succeed, both skip logs are empty, and
the number of extracted files equals the number `N` of regular files of the
tree. -/
theorem backup_restore_roundtrip (destFile dest : String) (t : FSTree)
    (hd : dirsOk rootPath t = true) (hr : filesReadable t = true)
    (hne : walkTree rootPath t ≠ []) :
    (doBackup destFile t none).result.success = true ∧
    (doRestore dest false (doBackup destFile t none).archive
        (fun _ => true) none).result.success = true ∧
    (doBackup destFile t none).skipped = [] ∧
    (doRestore dest false (doBackup destFile t none).archive
        (fun _ => true) none).skipped = [] ∧
    (doRestore dest false (doBackup destFile t none).archive
        (fun _ => true) none).extracted =
      (walkTree rootPath t).map
        (fun r => (pathJoin dest (lstripSep r.path), r.content)) ∧
    (doRestore dest false (doBackup destFile t none).archive
        (fun _ => true) none).extracted.length =
      (walkTree rootPath t).length ∧
    (t.isDir = true →
      (doRestore dest false (doBackup destFile t none).archive
          (fun _ => true) none).extracted.length = countFiles t) := by
  have hfalls : ∀ r ∈ walkTree rootPath t, r.readable = true :=
    walkTree_readable rootPath t hr
  have hbk := doBackup_complete destFile t hne
  have hmem := membersOf_all_readable (walkTree rootPath t) hfalls
  have hskip := skipPathsOf_all_readable (walkTree rootPath t) hfalls
  have hmne : membersOf (walkTree rootPath t) ≠ [] := by
    rw [hmem]
    simpa [List.map_eq_nil_iff] using hne
  have hrs := doRestore_complete dest false (membersOf (walkTree rootPath t))
    (fun _ => true) hmne
  have harch : (doBackup destFile t none).archive =
      some (membersOf (walkTree rootPath t)) := by rw [hbk]
  rw [harch, hrs, hbk]
  have hext : extractedOf dest (fun _ => true) (membersOf (walkTree rootPath t)) =
      (walkTree rootPath t).map
        (fun r => (pathJoin dest (lstripSep r.path), r.content)) := by
    rw [extractedOf_all, hmem, List.map_map]
    rfl
  refine ⟨rfl, rfl, hskip, skipNamesOf_all _, hext, ?_, ?_⟩
  · rw [hext, List.length_map]
  · intro hdir
    rw [hext, List.length_map, walkTree_eq_allRecords rootPath t hd]
    exact allRecords_length rootPath t hdir

/-- C1 witness: the concrete scenario of spec section 8 (`a.txt` = "hi",
`sub/b.txt` = "bye") round-trips. -/
theorem backup_restore_roundtrip_witness :
    (doBackup ("arch") sampleTree none).result.success = true ∧
    (doRestore ("/dst") false (doBackup ("arch") sampleTree none).archive
        (fun _ => true) none).result.success = true ∧
    (doBackup ("arch") sampleTree none).skipped = [] ∧
    (doRestore ("/dst") false (doBackup ("arch") sampleTree none).archive
        (fun _ => true) none).skipped = [] ∧
    (doRestore ("/dst") false (doBackup ("arch") sampleTree none).archive
        (fun _ => true) none).extracted =
      (walkTree rootPath sampleTree).map
        (fun r => (pathJoin ("/dst") (lstripSep r.path), r.content)) ∧
    (doRestore ("/dst") false (doBackup ("arch") sampleTree none).archive
        (fun _ => true) none).extracted.length =
      (walkTree rootPath sampleTree).length ∧
    (sampleTree.isDir = true →
      (doRestore ("/dst") false (doBackup ("arch") sampleTree none).archive
          (fun _ => true) none).extracted.length = countFiles sampleTree) :=
  backup_restore_roundtrip ("arch") ("/dst") sampleTree
    (by decide) (by decide) (by decide)

/-- C2 (amended): for trees whose entry names are slash-free, enumeration
produces no `FileRec` strictly below an excluded root (path starting with
the root followed by a separator), an excluded directory contributes no
files and no descent at all, and `/tmpx`-style extensions of an excluded
root are not excluded — but the exclusion check applies only to visited
directory paths, so a regular file sitting exactly at an excluded root's
path is still enumerated (see the counterexample). -/
theorem exclusion_prefix_sound :
    (∀ (t : FSTree) (ex : String), ex ∈ EXCLUDED_DIRS → validNames t = true →
      ∀ r ∈ walkTree rootPath t, startswith r.path (ex ++ ("/")) = false) ∧
    (∀ (p : String) (rd : Bool) (es : FSEntries), isExcludedDir p = true →
      walkTree p (.dir rd es) = []) ∧
    isExcludedDir ("/tmpx") = false ∧
    isExcludedDir ("/tmp") = true ∧
    isExcludedDir ("/tmp/sub") = true := by
  refine ⟨?_, ?_, by decide, by decide, by decide⟩
  · intro t ex hex hv r hr
    exact walkTree_no_excluded rootPath t ex hex hv r hr
  · intro p rd es hp
    simp [walkTree, hp]

/-- C2 witness: the sample tree's record `/a.txt` does not lie below
`/tmp`, and walking an excluded directory yields nothing. -/
theorem exclusion_prefix_sound_witness :
    startswith ("/a.txt") (("/tmp") ++ ("/")) = false ∧
    walkTree ("/tmp") (.dir true .nil) = [] :=
  ⟨exclusion_prefix_sound.1 sampleTree ("/tmp") (by decide) (by decide)
      ⟨("/a.txt"), true, [104, 105]⟩ (by decide),
    exclusion_prefix_sound.2.1 ("/tmp") true .nil (by decide)⟩

/-- C2 counterexample: with a regular file located exactly at `/tmp`, the
enumeration produces a `FileRec` whose absolute path equals the excluded
root `/tmp`, contradicting the claim's equality clause. -/
theorem exclusion_equality_cex :
    walkTree rootPath fileAtTmpTree = [⟨("/tmp"), true, [5]⟩] ∧
    ("/tmp") ∈ EXCLUDED_DIRS := by decide

/-- C3 (amended): the restore performs no pre-existence check on its
destination — `ensure_dir` calls `os.makedirs(..., exist_ok=True)` — so a
restore into an already-existing destination behaves exactly like one into
a fresh destination: it proceeds, extracts every member into the
pre-existing directory, and reports success; it does not fail. -/
theorem restore_ignores_existing_dest :
    (∀ (dest : String) (destExists : Bool) (archive : Option (List Member))
        (extractOk : String → Bool) (cancelK : Option Nat),
      doRestore dest destExists archive extractOk cancelK =
        doRestore dest false archive extractOk cancelK) ∧
    (∀ (dest : String) (members : List Member), members ≠ [] →
      (doRestore dest true (some members) (fun _ => true) none).result =
          ⟨true, msgRestoreDone dest⟩ ∧
        (doRestore dest true (some members) (fun _ => true) none).extracted =
          members.map (fun m => (pathJoin dest m.name, m.content))) := by
  constructor
  · intro dest de archive ok k
    rfl
  · intro dest members h
    rw [doRestore_complete dest true members (fun _ => true) h]
    exact ⟨rfl, extractedOf_all dest members⟩

/-- C3 witness: restoring a one-member archive into an existing destination
succeeds and writes the member into it. -/
theorem restore_ignores_existing_dest_witness :
    (doRestore ("/r/d") true (some [⟨("a"), [1]⟩]) (fun _ => true) none).result =
        ⟨true, msgRestoreDone ("/r/d")⟩ ∧
      (doRestore ("/r/d") true (some [⟨("a"), [1]⟩]) (fun _ => true) none).extracted =
        ([⟨("a"), [1]⟩] : List Member).map (fun m => (pathJoin ("/r/d") m.name, m.content)) :=
  restore_ignores_existing_dest.2 ("/r/d") [⟨("a"), [1]⟩] (by decide)

/-- C3 counterexample: a restore whose destination pre-exists terminates
with success and a nonempty set of writes into that directory, not with the
Failed result and untouched directory the claim requires. -/
theorem restore_existing_dest_cex :
    (doRestore ("/r/d") true (some [⟨("a"), [1]⟩]) (fun _ => true) none).result.success
        = true ∧
    (doRestore ("/r/d") true (some [⟨("a"), [1]⟩]) (fun _ => true) none).extracted
        = [(("/r/d/a"), [1])] := by decide

/-- C4: the extraction loop hands `os.path.join(extract_dir, member.name)`
to the filesystem verbatim: a member named `../evil` is written to
`/base/dest/../evil`, which resolves to `/base/evil`, outside the
destination `/base/dest`, and the job still reports success — the code has
no rejection or sanitization of parent-reference member names. -/
theorem restore_path_escape :
    (doRestore ("/base/dest") false (some [⟨("../evil"), [7]⟩])
        (fun _ => true) none).extracted = [(("/base/dest/../evil"), [7])] ∧
    (doRestore ("/base/dest") false (some [⟨("../evil"), [7]⟩])
        (fun _ => true) none).result.success = true ∧
    resolvePath ("/base/dest/../evil") = ("/base/evil") ∧
    escapesOutside ("/base/dest") ("/base/dest/../evil") = true := by decide

/-- C5 (amended): within any backup or restore job the emitted percentages
are non-decreasing; a completed job's emissions are the cadence values
(every 50 items and at the final item; the backup additionally emits 0 at
job start) followed by the unconditional final 100, so the final emission
is 100 — but 100 is emitted exactly twice per completed job (once by the
final item's cadence emission `int(total * 100 / total)` and once
unconditionally after the loop), not exactly once. -/
theorem progress_discipline :
    (∀ (destFile : String) (t : FSTree) (cancelK : Option Nat),
      (doBackup destFile t cancelK).progress.Pairwise (· ≤ ·)) ∧
    (∀ (dest : String) (de : Bool) (archive : Option (List Member))
        (ok : String → Bool) (cancelK : Option Nat),
      (doRestore dest de archive ok cancelK).progress.Pairwise (· ≤ ·)) ∧
    (∀ (destFile : String) (t : FSTree), walkTree rootPath t ≠ [] →
      (doBackup destFile t none).progress =
        0 :: (progressEmits (walkTree rootPath t).length 1
          (walkTree rootPath t).length ++ [100]) ∧
      (doBackup destFile t none).progress.getLast? = some 100 ∧
      (doBackup destFile t none).progress.count 100 = 2) ∧
    (∀ (dest : String) (de : Bool) (members : List Member) (ok : String → Bool),
      members ≠ [] →
      (doRestore dest de (some members) ok none).progress =
        progressEmits members.length 1 members.length ++ [100] ∧
      (doRestore dest de (some members) ok none).progress.getLast? = some 100 ∧
      (doRestore dest de (some members) ok none).progress.count 100 = 2) := by
  refine ⟨?_, ?_, ?_, ?_⟩
  · intro destFile t ck
    by_cases hnil : walkTree rootPath t = []
    · rw [doBackup_no_files destFile t ck hnil]
      simp
    · cases ck with
      | none =>
        rw [doBackup_complete destFile t hnil]
        exact sorted_zero_cons _ (sorted_emits_append_100 _ _ (Nat.le_refl _))
      | some k =>
        rcases Nat.lt_or_ge k (walkTree rootPath t).length with hk | hk
        · rw [doBackup_cancelled destFile t k hk]
          exact sorted_zero_cons _ (progressEmits_sorted _ _ _)
        · rw [doBackup_some_complete destFile t k hnil hk]
          exact sorted_zero_cons _ (sorted_emits_append_100 _ _ (Nat.le_refl _))
  · intro dest de archive ok ck
    cases archive with
    | none =>
      rw [doRestore_open_fails]
      simp
    | some members =>
      by_cases hnil : members = []
      · subst hnil
        rw [doRestore_empty]
        simp
      · cases ck with
        | none =>
          rw [doRestore_complete dest de members ok hnil]
          exact sorted_emits_append_100 _ _ (Nat.le_refl _)
        | some k =>
          rcases Nat.lt_or_ge k members.length with hk | hk
          · rw [doRestore_cancelled dest de members ok k hk]
            exact progressEmits_sorted _ _ _
          · rw [doRestore_some_complete dest de members ok k hnil hk]
            exact sorted_emits_append_100 _ _ (Nat.le_refl _)
  · intro destFile t hne
    have htot : 1 ≤ (walkTree rootPath t).length := List.length_pos.mpr hne
    rw [doBackup_complete destFile t hne]
    exact ⟨rfl, getLast_zero_cons_append_100 _, count_100_backup_complete _ htot⟩
  · intro dest de members ok hne
    have htot : 1 ≤ members.length := List.length_pos.mpr hne
    rw [doRestore_complete dest de members ok hne]
    refine ⟨rfl, List.getLast?_concat _, count_100_restore_complete _ htot⟩

/-- C5 witness: the two-file sample backup's progress stream is
non-decreasing, ends at 100, and holds 100 twice. -/
theorem progress_discipline_witness :
    (doBackup ("f") sampleTree none).progress.Pairwise (· ≤ ·) ∧
    (doBackup ("f") sampleTree none).progress.getLast? = some 100 ∧
    (doBackup ("f") sampleTree none).progress.count 100 = 2 :=
  ⟨progress_discipline.1 ("f") sampleTree none,
    (progress_discipline.2.2.1 ("f") sampleTree (by decide)).2.1,
    (progress_discipline.2.2.1 ("f") sampleTree (by decide)).2.2⟩

/-- C5 counterexample: a completed one-member restore emits `[100, 100]` —
the value 100 is emitted twice, falsifying the claim's "exactly once". -/
theorem progress_100_twice_cex :
    (doRestore ("/d") false (some [⟨("a"), [1]⟩]) (fun _ => true) none).progress
        = [100, 100] ∧
    (doRestore ("/d") false (some [⟨("a"), [1]⟩]) (fun _ => true) none).progress.count 100
        = 2 := by decide

/-- C6: a backup or restore job over `n` items whose cancellation flag is
set after `k` processed items, `0 < k < n`, terminates with the
cancellation result — `success = false` carrying the cancellation-specific
message, which differs from the failure messages — and never emits the
percentage 100. -/
theorem cancel_mid_job :
    (∀ (destFile : String) (t : FSTree) (k : Nat), 0 < k →
      k < (walkTree rootPath t).length →
      (doBackup destFile t (some k)).result = ⟨false, msgBackupCancelled⟩ ∧
      100 ∉ (doBackup destFile t (some k)).progress) ∧
    (∀ (dest : String) (de : Bool) (members : List Member)
        (ok : String → Bool) (k : Nat), 0 < k → k < members.length →
      (doRestore dest de (some members) ok (some k)).result =
        ⟨false, msgRestoreCancelled⟩ ∧
      100 ∉ (doRestore dest de (some members) ok (some k)).progress) ∧
    msgBackupCancelled ≠ msgNoFiles ∧ msgRestoreCancelled ≠ msgEmptyArchive := by
  refine ⟨?_, ?_, by decide, by decide⟩
  · intro destFile t k hk hlt
    rw [doBackup_cancelled destFile t k hlt]
    refine ⟨rfl, ?_⟩
    simp only [List.mem_cons]
    rintro (h0 | hmem)
    · cases h0
    · have := progressEmits_mem_lt (walkTree rootPath t).length 1 k
        (by omega) 100 hmem
      omega
  · intro dest de members ok k hk hlt
    rw [doRestore_cancelled dest de members ok k hlt]
    refine ⟨rfl, ?_⟩
    intro hmem
    have := progressEmits_mem_lt members.length 1 k (by omega) 100 hmem
    omega

/-- C6 witness: cancelling a two-item backup and a two-member restore after
one processed item yields the cancellation results with no 100 emitted. -/
theorem cancel_mid_job_witness :
    ((doBackup ("f") twoFilesTree (some 1)).result =
        ⟨false, msgBackupCancelled⟩ ∧
      100 ∉ (doBackup ("f") twoFilesTree (some 1)).progress) ∧
    ((doRestore ("/d") false (some [⟨("a"), [1]⟩, ⟨("b"), [2]⟩])
          (fun _ => true) (some 1)).result = ⟨false, msgRestoreCancelled⟩ ∧
      100 ∉ (doRestore ("/d") false (some [⟨("a"), [1]⟩, ⟨("b"), [2]⟩])
          (fun _ => true) (some 1)).progress) :=
  ⟨cancel_mid_job.1 ("f") twoFilesTree 1 (by decide) (by decide),
    cancel_mid_job.2.1 ("/d") false [⟨("a"), [1]⟩, ⟨("b"), [2]⟩]
      (fun _ => true) 1 (by decide) (by decide)⟩

/-- C7: a backup whose enumeration yields zero files fails with the
"nothing to back up" message, emits only the initial 0, and creates no
archive file at all (`tarfile.open` is never reached). -/
theorem empty_backup_fails (destFile : String) (t : FSTree) (cancelK : Option Nat)
    (h : walkTree rootPath t = []) :
    doBackup destFile t cancelK = ⟨[0], none, [], ⟨false, msgNoFiles⟩⟩ :=
  doBackup_no_files destFile t cancelK h

/-- C7 witness: backing up an empty root directory fails without an
archive. -/
theorem empty_backup_fails_witness :
    doBackup ("f") (FSTree.dir true FSEntries.nil) none =
      ⟨[0], none, [], ⟨false, msgNoFiles⟩⟩ :=
  empty_backup_fails ("f") (FSTree.dir true FSEntries.nil) none (by decide)

/-- C8 (amended): for an unreadable root, `os.walk` (run with
`onerror=None`) swallows the `scandir` error, so enumeration returns the
empty sequence rather than failing with an `IOError`; the backup job then
fails with the "nothing to back up" message, whatever the root contains. -/
theorem unreadable_root_enumerates_empty :
    ∀ (destFile : String) (es : FSEntries) (cancelK : Option Nat),
      walkTree rootPath (.dir false es) = [] ∧
      doBackup destFile (.dir false es) cancelK =
        ⟨[0], none, [], ⟨false, msgNoFiles⟩⟩ := by
  intro destFile es ck
  have hw : walkTree rootPath (.dir false es) = [] := by simp [walkTree]
  exact ⟨hw, doBackup_no_files destFile _ ck hw⟩

/-- C8 counterexample: an unreadable root that does contain a readable file
enumerates to the empty sequence — no `IOError`-style failure distinct from
the empty-enumeration one is produced; the job reports the
"nothing to back up" failure instead. -/
theorem unreadable_root_empty_cex :
    walkTree rootPath unreadableRootTree = [] ∧
    (doBackup ("f") unreadableRootTree none).result = ⟨false, msgNoFiles⟩ ∧
    countFiles unreadableRootTree = 1 := by decide

/-- C9: a backup with at least one enumerated file all of whose `tar.add`
attempts raise (every file unreadable) still completes: the terminal result
is success, the final progress emission is 100 (progress is computed from
the count of attempted files, not added ones), every file appears in the
skip log, and the archive on disk holds zero members. -/
theorem all_skipped_backup_succeeds (destFile : String) (t : FSTree)
    (hne : walkTree rootPath t ≠ [])
    (hun : ∀ r ∈ walkTree rootPath t, r.readable = false) :
    (doBackup destFile t none).result = ⟨true, msgBackupDone destFile⟩ ∧
    (doBackup destFile t none).archive = some [] ∧
    (doBackup destFile t none).skipped =
      (walkTree rootPath t).map (fun r => r.path) ∧
    (doBackup destFile t none).progress.getLast? = some 100 := by
  rw [doBackup_complete destFile t hne]
  refine ⟨rfl, ?_, ?_, ?_⟩
  · rw [membersOf_none_readable _ hun]
  · rw [skipPathsOf_none_readable _ hun]
  · exact getLast_zero_cons_append_100 _

/-- C9 witness: a backup of a single unreadable file succeeds with an empty
archive, the file skip-logged, and final progress 100. -/
theorem all_skipped_backup_succeeds_witness :
    (doBackup ("f") unreadableFilesTree none).result =
        ⟨true, msgBackupDone ("f")⟩ ∧
    (doBackup ("f") unreadableFilesTree none).archive = some [] ∧
    (doBackup ("f") unreadableFilesTree none).skipped =
      (walkTree rootPath unreadableFilesTree).map (fun r => r.path) ∧
    (doBackup ("f") unreadableFilesTree none).progress.getLast? = some 100 :=
  all_skipped_backup_succeeds ("f") unreadableFilesTree (by decide) (by decide)

/-- C10: `_do_restore` calls `ensure_dir` before `tarfile.open`, so the
destination-creation event always heads the trace; in particular a restore
that fails because the archive cannot be opened, or lists zero members,
still leaves the freshly created destination directory behind — restore
failure does not leave the filesystem unchanged. -/
theorem restore_creates_dir_first :
    ∀ (dest : String) (de : Bool) (archive : Option (List Member))
      (ok : String → Bool) (cancelK : Option Nat),
      (doRestore dest de archive ok cancelK).trace.head? =
        some REvent.ensureDir ∧
      (archive = none →
        doRestore dest de archive ok cancelK =
          ⟨[.ensureDir, .openArchive false], [], [], [],
            ⟨false, msgRestoreOpenError⟩⟩) ∧
      (archive = some [] →
        doRestore dest de archive ok cancelK =
          ⟨[.ensureDir, .openArchive true], [], [], [],
            ⟨false, msgEmptyArchive⟩⟩) := by
  intro dest de archive ok ck
  refine ⟨?_, ?_, ?_⟩
  · cases archive with
    | none => rfl
    | some members =>
      by_cases hnil : members.length = 0
      · simp [doRestore, hnil]
      · simp only [doRestore, hnil, if_false]
        split <;> rfl
  · rintro rfl
    exact doRestore_open_fails dest de ok ck
  · rintro rfl
    exact doRestore_empty dest de ok ck

/-- C10 witness: a restore of an unopenable archive fails yet its trace
begins with the destination-directory creation. -/
theorem restore_creates_dir_first_witness :
    (doRestore ("/d") false none (fun _ => true) none).trace.head? =
        some REvent.ensureDir ∧
      doRestore ("/d") false none (fun _ => true) none =
        ⟨[.ensureDir, .openArchive false], [], [], [],
          ⟨false, msgRestoreOpenError⟩⟩ :=
  ⟨(restore_creates_dir_first ("/d") false none (fun _ => true) none).1,
    (restore_creates_dir_first ("/d") false none (fun _ => true) none).2.1 rfl⟩
